import Mathlib

/-!
Verification of the RNN-Transducer forward-score engine of
`src/ha/transducer.py` against its natural-language specification.

The Python functions operate on real-valued tensors; they are embedded here
as functions over `ℕ`-indexed families of reals.  A score matrix of shape
`(T, K)` becomes `f : ℕ → ℕ → ℝ` together with explicit bounds `T K : ℕ`;
the target tensor of length `U` becomes `y : ℕ → ℕ` (or `ℕ → ℤ` where the
runtime indexing semantics of the tensor library matter).  Floating-point
arithmetic is modelled by exact real arithmetic, as the specification's
tolerance clauses direct.

The helpers `scanrec` and `scanrec_log` are imported by the source from a
module `.scan` that is not part of the provided sources; they are modelled
from the specification (section 4.3) as the sequential linear-recurrence
unroll that the specification requires them to match.
-/

open Finset

/-- Softmax over the first `K` coordinates of `z`, evaluated at coordinate
`k`; embeds `Tensor.softmax(dim=-1)` applied to a row of length `K`. -/
noncomputable def softmax (z : ℕ → ℝ) (K k : ℕ) : ℝ :=
  Real.exp (z k) / ∑ j ∈ range K, Real.exp (z j)

/-- Log-softmax over the first `K` coordinates of `z`, evaluated at `k`;
embeds `Tensor.log_softmax(dim=-1)` applied to a row of length `K`. -/
noncomputable def logSoftmax (z : ℕ → ℝ) (K k : ℕ) : ℝ :=
  z k - Real.log (∑ j ∈ range K, Real.exp (z j))

/-- Probability-domain joint lattice, `transducer.py` line 18:
`(f[:, None, :] + g[None, :, :]).softmax(dim=-1)` at entry `(t, u, k)`. -/
noncomputable def jointP (f g : ℕ → ℕ → ℝ) (K t u k : ℕ) : ℝ :=
  softmax (fun j => f t j + g u j) K k

/-- Log-domain joint lattice, `transducer.py` line 88:
`(f[:, None, :] + g[None, :, :]).log_softmax(dim=-1)` at entry `(t, u, k)`. -/
noncomputable def jointL (f g : ℕ → ℕ → ℝ) (K t u k : ℕ) : ℝ :=
  logSoftmax (fun j => f t j + g u j) K k

/-- Row `0` of the forward table: the first `u`-loop of
`transducer_forward_score1` (`alpha[0,0] = 1`;
`alpha[0,u] = alpha[0,u-1] * joint_probs[0,u-1,targets[u-1]]`). -/
noncomputable def alphaFwdRow0 (p : ℕ → ℕ → ℕ → ℝ) (y : ℕ → ℕ) : ℕ → ℝ
  | 0 => 1
  | u + 1 => alphaFwdRow0 p y u * p 0 u (y u)

/-- Row `t+1` of the forward table, computed from row `t` (`prev`): the body
of the `t`-loop of `transducer_forward_score1`
(`alpha[t,0] = alpha[t-1,0] * joint_probs[t-1,0,0]`;
`alpha[t,u] = alpha[t-1,u] * joint_probs[t-1,u,0]
            + alpha[t,u-1] * joint_probs[t,u-1,targets[u-1]]`). -/
noncomputable def alphaFwdStep (p : ℕ → ℕ → ℕ → ℝ) (y : ℕ → ℕ)
    (prev : ℕ → ℝ) (t : ℕ) : ℕ → ℝ
  | 0 => prev 0 * p t 0 0
  | u + 1 => prev (u + 1) * p t (u + 1) 0 + alphaFwdStep p y prev t u * p (t + 1) u (y u)

/-- The forward table `alpha` of `transducer_forward_score1`, filled row by
row exactly as the two nested loops of the source do. -/
noncomputable def alphaFwd (p : ℕ → ℕ → ℕ → ℝ) (y : ℕ → ℕ) : ℕ → ℕ → ℝ
  | 0 => alphaFwdRow0 p y
  | t + 1 => alphaFwdStep p y (alphaFwd p y t) t

/-- Embedding of `transducer_forward_score1` (probability domain): builds the
softmax joint lattice, fills `alpha`, and returns
`alpha[T-1, U-1] * joint_probs[T-1, U-1, 0]`. -/
noncomputable def transducer_forward_score1 (T U K : ℕ) (f g : ℕ → ℕ → ℝ)
    (y : ℕ → ℕ) : ℝ :=
  alphaFwd (jointP f g K) y (T - 1) (U - 1) * jointP f g K (T - 1) (U - 1) 0

@[simp] lemma alphaFwd_zero_zero (p : ℕ → ℕ → ℕ → ℝ) (y : ℕ → ℕ) :
    alphaFwd p y 0 0 = 1 := rfl

@[simp] lemma alphaFwd_zero_succ (p : ℕ → ℕ → ℕ → ℝ) (y : ℕ → ℕ) (u : ℕ) :
    alphaFwd p y 0 (u + 1) = alphaFwd p y 0 u * p 0 u (y u) := rfl

@[simp] lemma alphaFwd_succ_zero (p : ℕ → ℕ → ℕ → ℝ) (y : ℕ → ℕ) (t : ℕ) :
    alphaFwd p y (t + 1) 0 = alphaFwd p y t 0 * p t 0 0 := rfl

@[simp] lemma alphaFwd_succ_succ (p : ℕ → ℕ → ℕ → ℝ) (y : ℕ → ℕ) (t u : ℕ) :
    alphaFwd p y (t + 1) (u + 1)
      = alphaFwd p y t (u + 1) * p t (u + 1) 0
        + alphaFwd p y (t + 1) u * p (t + 1) u (y u) := rfl

lemma alphaFwd_col0 (p : ℕ → ℕ → ℕ → ℝ) (y : ℕ → ℕ) :
    ∀ t, alphaFwd p y t 0 = ∏ s ∈ range t, p s 0 0 := by
  intro t
  induction t with
  | zero => simp
  | succ t ih => rw [alphaFwd_succ_zero, ih, prod_range_succ]

lemma alphaFwd_row0_prod (p : ℕ → ℕ → ℕ → ℝ) (y : ℕ → ℕ) :
    ∀ u, alphaFwd p y 0 u = ∏ v ∈ range u, p 0 v (y v) := by
  intro u
  induction u with
  | zero => simp
  | succ u ih => rw [alphaFwd_zero_succ, ih, prod_range_succ]

/-- C1: for every `T ≥ 1`, `U ≥ 1` and all real-valued inputs,
`transducer_forward_score1` fills the alpha table exactly by the
probability-domain recurrence of spec section 4.2 — `alpha[0,0] = 1`;
`alpha[0,u] = alpha[0,u-1] * P(target[u-1] at (0,u-1))`;
`alpha[t,0] = alpha[t-1,0] * P(blank at (t-1,0))`;
`alpha[t,u] = alpha[t-1,u] * P(blank at (t-1,u))
            + alpha[t,u-1] * P(target[u-1] at (t,u-1))` —
and returns `alpha[T-1,U-1]` times the blank probability of the joint
lattice at `(T-1,U-1)`. -/
theorem spec_C1_forward_recurrence (f g : ℕ → ℕ → ℝ) (K T U t u : ℕ)
    (y : ℕ → ℕ) (hT : 1 ≤ T) (hU : 1 ≤ U) :
    alphaFwd (jointP f g K) y 0 0 = 1
    ∧ alphaFwd (jointP f g K) y 0 (u + 1)
        = alphaFwd (jointP f g K) y 0 u * jointP f g K 0 u (y u)
    ∧ alphaFwd (jointP f g K) y (t + 1) 0
        = alphaFwd (jointP f g K) y t 0 * jointP f g K t 0 0
    ∧ alphaFwd (jointP f g K) y (t + 1) (u + 1)
        = alphaFwd (jointP f g K) y t (u + 1) * jointP f g K t (u + 1) 0
          + alphaFwd (jointP f g K) y (t + 1) u * jointP f g K (t + 1) u (y u)
    ∧ transducer_forward_score1 T U K f g y
        = alphaFwd (jointP f g K) y (T - 1) (U - 1)
          * jointP f g K (T - 1) (U - 1) 0 :=
  ⟨rfl, rfl, rfl, rfl, rfl⟩

theorem spec_C1_witness :
    transducer_forward_score1 1 1 1 (fun _ _ => 0) (fun _ _ => 0) (fun _ => 0)
      = alphaFwd (jointP (fun _ _ => 0) (fun _ _ => 0) 1) (fun _ => 0) 0 0
        * jointP (fun _ _ => 0) (fun _ _ => 0) 1 0 0 0 :=
  (spec_C1_forward_recurrence (fun _ _ => 0) (fun _ _ => 0) 1 1 1 0 0
    (fun _ => 0) (by decide) (by decide)).2.2.2.2

/-- C6: for every pair of score matrices, every entry `(t,u,k)` of the joint
lattice equals the softmax (log-softmax for the log-domain lattice) over the
`K` axis of the elementwise sum `transcription[t] + prediction[u]`, evaluated
at `k`; the lattice is a pure function of the two inputs (it is a plain
function here, so it admits no mutation after construction). -/
theorem spec_C6_joint_lattice (f g : ℕ → ℕ → ℝ) (K t u k : ℕ) :
    jointP f g K t u k
      = Real.exp (f t k + g u k) / ∑ j ∈ range K, Real.exp (f t j + g u j)
    ∧ jointL f g K t u k
      = (f t k + g u k) - Real.log (∑ j ∈ range K, Real.exp (f t j + g u j)) :=
  ⟨rfl, rfl⟩

/-- C7: for `U = 1` (no labels, a single blank column) and any `T ≥ 1`, the
probability-domain score equals the product over `t = 0 .. T-1` of the blank
probability of the joint lattice at `(t, 0)`. -/
theorem spec_C7_single_column (f g : ℕ → ℕ → ℝ) (K T : ℕ) (y : ℕ → ℕ)
    (hT : 1 ≤ T) :
    transducer_forward_score1 T 1 K f g y = ∏ t ∈ range T, jointP f g K t 0 0 := by
  obtain ⟨T', rfl⟩ : ∃ T', T = T' + 1 := ⟨T - 1, by omega⟩
  rw [transducer_forward_score1]
  simp only [Nat.add_sub_cancel, Nat.sub_self]
  rw [alphaFwd_col0, prod_range_succ]

theorem spec_C7_witness :
    transducer_forward_score1 2 1 1 (fun _ _ => 0) (fun _ _ => 0) (fun _ => 0)
      = ∏ t ∈ range 2, jointP (fun _ _ => 0) (fun _ _ => 0) 1 t 0 0 :=
  spec_C7_single_column (fun _ _ => 0) (fun _ _ => 0) 1 2 (fun _ => 0) (by decide)

/-- C8: for `T = 1` and any `U ≥ 1`, the probability-domain score equals the
product over the `U - 1` label positions of the per-label transition
probability read from the joint lattice at `(0, u)`, multiplied by the final
blank probability at `(0, U-1)`. -/
theorem spec_C8_single_row (f g : ℕ → ℕ → ℝ) (K U : ℕ) (y : ℕ → ℕ)
    (hU : 1 ≤ U) :
    transducer_forward_score1 1 U K f g y
      = (∏ u ∈ range (U - 1), jointP f g K 0 u (y u))
        * jointP f g K 0 (U - 1) 0 := by
  rw [transducer_forward_score1]
  simp only [Nat.sub_self]
  rw [alphaFwd_row0_prod]

theorem spec_C8_witness :
    transducer_forward_score1 1 2 1 (fun _ _ => 0) (fun _ _ => 0) (fun _ => 0)
      = (∏ u ∈ range 1, jointP (fun _ _ => 0) (fun _ _ => 0) 1 0 u ((fun _ => 0) u))
        * jointP (fun _ _ => 0) (fun _ _ => 0) 1 0 1 0 :=
  spec_C8_single_row (fun _ _ => 0) (fun _ _ => 0) 1 2 (fun _ => 0) (by decide)

/-- Cumulative product along a sequence (`torch.cumprod(b, dim=0)`):
entry `u` is the product of `b 0 .. b u`. -/
noncomputable def cumprod (b : ℕ → ℝ) : ℕ → ℝ
  | 0 => b 0
  | u + 1 => cumprod b u * b (u + 1)

/-- Cumulative sum along a sequence (`torch.cumsum(b, dim=0)`):
entry `u` is the sum of `b 0 .. b u`. -/
noncomputable def cumsum (b : ℕ → ℝ) : ℕ → ℝ
  | 0 => b 0
  | u + 1 => cumsum b u + b (u + 1)

/-- Modelled from the spec: the probability-domain associative-scan helper
`scanrec` of the module `ha/scan.py`, which is imported by the source but not
among the provided files.  Spec section 4.3 requires it to unroll the linear
recurrence combining a per-position carry coefficient `b` ("from_bot") with
additive contributions `f` ("from_left"), matching the sequential recurrence
`r[u] = r[u-1] * b[u] + f[u]` with empty carry before position `0`. -/
noncomputable def scanrec (b f : ℕ → ℝ) : ℕ → ℝ
  | 0 => f 0
  | u + 1 => scanrec b f u * b (u + 1) + f (u + 1)

/-- The shifted gather `torch.cat((ones(1), joint[t, :].gather(-1, targets[:, None])[:, 0][:-1]))`
of `transducer_forward_score2`: position `0` holds `1`, position `u+1` holds
`joint_probs[t, u, targets[u]]`. -/
noncomputable def fromBotP (p : ℕ → ℕ → ℕ → ℝ) (y : ℕ → ℕ) (t : ℕ) : ℕ → ℝ
  | 0 => 1
  | u + 1 => p t u (y u)

/-- The alpha table of `transducer_forward_score2`: row `0` is the cumulative
product of the shifted target gather, and every later row is produced by
`scanrec` from the carry `from_left = alpha[t-1, :] * joint_probs[t-1, :, 0]`. -/
noncomputable def alphaScan (p : ℕ → ℕ → ℕ → ℝ) (y : ℕ → ℕ) : ℕ → ℕ → ℝ
  | 0 => cumprod (fromBotP p y 0)
  | t + 1 => scanrec (fromBotP p y (t + 1)) (fun v => alphaScan p y t v * p t v 0)

/-- Embedding of `transducer_forward_score2` (probability domain, flood-fill
style): returns `alpha[T-1, U-1] * joint_probs[T-1, U-1, 0]` where `alpha` is
built with `cumprod` and `scanrec`. -/
noncomputable def transducer_forward_score2 (T U K : ℕ) (f g : ℕ → ℕ → ℝ)
    (y : ℕ → ℕ) : ℝ :=
  alphaScan (jointP f g K) y (T - 1) (U - 1) * jointP f g K (T - 1) (U - 1) 0

lemma alphaScan_eq_alphaFwd (p : ℕ → ℕ → ℕ → ℝ) (y : ℕ → ℕ) :
    ∀ t u, alphaScan p y t u = alphaFwd p y t u := by
  intro t
  induction t with
  | zero =>
      intro u
      induction u with
      | zero => simp [alphaScan, cumprod, fromBotP]
      | succ u ih =>
          show cumprod (fromBotP p y 0) (u + 1) = _
          have ih' : cumprod (fromBotP p y 0) u = alphaFwd p y 0 u := ih
          rw [cumprod, ih']
          simp [fromBotP]
  | succ t ih =>
      intro u
      induction u with
      | zero =>
          show scanrec (fromBotP p y (t + 1)) (fun v => alphaScan p y t v * p t v 0) 0 = _
          rw [scanrec, ih 0, alphaFwd_succ_zero]
      | succ u ihu =>
          show scanrec (fromBotP p y (t + 1)) (fun v => alphaScan p y t v * p t v 0) (u + 1) = _
          rw [scanrec, alphaFwd_succ_succ]
          have hs : scanrec (fromBotP p y (t + 1)) (fun v => alphaScan p y t v * p t v 0) u
              = alphaFwd p y (t + 1) u := ihu
          rw [hs, ih (u + 1)]
          simp [fromBotP]
          ring

/-- C3: for every input with `T ≥ 1` and `U ≥ 1`, the naive nested-loop
probability-domain recurrence (`transducer_forward_score1`) and the
associative-scan flood-fill formulation (`transducer_forward_score2`, one
`cumprod` row plus `scanrec` rows over `from_bot`/`from_left`) return the
same scalar score under exact real arithmetic. -/
theorem spec_C3_naive_eq_scan (T U K : ℕ) (f g : ℕ → ℕ → ℝ) (y : ℕ → ℕ)
    (hT : 1 ≤ T) (hU : 1 ≤ U) :
    transducer_forward_score2 T U K f g y = transducer_forward_score1 T U K f g y := by
  rw [transducer_forward_score1, transducer_forward_score2, alphaScan_eq_alphaFwd]

theorem spec_C3_witness :
    transducer_forward_score2 2 2 2 (fun t k => t + k) (fun u k => u * k) (fun _ => 1)
      = transducer_forward_score1 2 2 2 (fun t k => t + k) (fun u k => u * k) (fun _ => 1) :=
  spec_C3_naive_eq_scan 2 2 2 (fun t k => t + k) (fun u k => u * k) (fun _ => 1)
    (by decide) (by decide)

/-- Modelled from the spec: the log-domain associative-scan helper
`scanrec_log` of the missing module `ha/scan.py`.  Spec section 4.3 requires
the log-domain version to combine cumulative sums with pairwise log-sum-exp
and to match the sequential recurrence exactly, i.e.
`r[u] = logaddexp(r[u-1] + b[u], f[u])` with empty carry before position `0`
(the runtime sentinel for "unreachable" never survives into a returned cell,
so the exact-arithmetic model starts from `f 0`). -/
noncomputable def scanrecLog (b f : ℕ → ℝ) : ℕ → ℝ
  | 0 => f 0
  | u + 1 => Real.log (Real.exp (scanrecLog b f u + b (u + 1)) + Real.exp (f (u + 1)))

/-- The shifted gather `torch.cat((zeros(1), joint[t, :].gather(-1, targets[:, None])[:, 0][:-1]))`
of `transducer_forward_score3`: position `0` holds `0`, position `u+1` holds
`joint[t, u, targets[u]]`. -/
noncomputable def logFromBot (q : ℕ → ℕ → ℕ → ℝ) (y : ℕ → ℕ) (t : ℕ) : ℕ → ℝ
  | 0 => 0
  | u + 1 => q t u (y u)

/-- The `log_alpha` table of `transducer_forward_score3` (time-major): row `0`
is the cumulative sum of the shifted target gather, and every later row is
produced by `scanrec_log` from the carry
`from_left = log_alpha[t-1, :] + joint[t-1, :, 0]`. -/
noncomputable def logAlphaTM (q : ℕ → ℕ → ℕ → ℝ) (y : ℕ → ℕ) : ℕ → ℕ → ℝ
  | 0 => cumsum (logFromBot q y 0)
  | t + 1 => scanrecLog (logFromBot q y (t + 1)) (fun v => logAlphaTM q y t v + q t v 0)

/-- Embedding of `transducer_forward_score3` (log domain, time-major):
returns `log_alpha[T-1, U-1] + joint[T-1, U-1, 0]`. -/
noncomputable def transducer_forward_score3 (T U K : ℕ) (f g : ℕ → ℕ → ℝ)
    (y : ℕ → ℕ) : ℝ :=
  logAlphaTM (jointL f g K) y (T - 1) (U - 1) + jointL f g K (T - 1) (U - 1) 0

/-- The shifted blank column `torch.cat((zeros(1), joint[:, u, 0][:-1]))` of
`transducer_forward_score3_transposed`: position `0` holds `0`, position
`t+1` holds `joint[t, u, 0]`. -/
noncomputable def logFromLeft (q : ℕ → ℕ → ℕ → ℝ) (u : ℕ) : ℕ → ℝ
  | 0 => 0
  | t + 1 => q t u 0

/-- The `log_alpha` table of `transducer_forward_score3_transposed`
(label-major), indexed column first: column `0` is the cumulative sum of the
shifted blank column, and every later column is produced by `scanrec_log`
from the carry `from_bot = log_alpha[:, u-1] + joint[:, u-1, targets[u-1]]`. -/
noncomputable def logAlphaLM (q : ℕ → ℕ → ℕ → ℝ) (y : ℕ → ℕ) : ℕ → ℕ → ℝ
  | 0 => cumsum (logFromLeft q 0)
  | u + 1 => scanrecLog (logFromLeft q (u + 1)) (fun s => logAlphaLM q y u s + q s u (y u))

/-- Embedding of `transducer_forward_score3_transposed` (log domain,
label-major): returns `log_alpha[T-1, U-1] + joint[T-1, U-1, 0]`. -/
noncomputable def transducer_forward_score3_transposed (T U K : ℕ)
    (f g : ℕ → ℕ → ℝ) (y : ℕ → ℕ) : ℝ :=
  logAlphaLM (jointL f g K) y (U - 1) (T - 1) + jointL f g K (T - 1) (U - 1) 0

lemma exp_logAlphaTM (q : ℕ → ℕ → ℕ → ℝ) (y : ℕ → ℕ) :
    ∀ t u, Real.exp (logAlphaTM q y t u)
      = alphaFwd (fun a b k => Real.exp (q a b k)) y t u := by
  intro t
  induction t with
  | zero =>
      intro u
      induction u with
      | zero =>
          show Real.exp (cumsum (logFromBot q y 0) 0) = _
          simp [cumsum, logFromBot]
      | succ u ih =>
          show Real.exp (cumsum (logFromBot q y 0) (u + 1)) = _
          have ih' : Real.exp (cumsum (logFromBot q y 0) u)
              = alphaFwd (fun a b k => Real.exp (q a b k)) y 0 u := ih
          rw [cumsum, Real.exp_add, ih']
          simp [logFromBot]
  | succ t ih =>
      intro u
      induction u with
      | zero =>
          show Real.exp (scanrecLog (logFromBot q y (t + 1))
            (fun v => logAlphaTM q y t v + q t v 0) 0) = _
          rw [scanrecLog]
          simp only [Real.exp_add, ih 0, alphaFwd_succ_zero]
      | succ u ihu =>
          show Real.exp (scanrecLog (logFromBot q y (t + 1))
            (fun v => logAlphaTM q y t v + q t v 0) (u + 1)) = _
          have ihu' : Real.exp (scanrecLog (logFromBot q y (t + 1))
              (fun v => logAlphaTM q y t v + q t v 0) u)
              = alphaFwd (fun a b k => Real.exp (q a b k)) y (t + 1) u := ihu
          rw [scanrecLog, Real.exp_log (by positivity), Real.exp_add, ihu',
            Real.exp_add, ih (u + 1), alphaFwd_succ_succ]
          simp [logFromBot]
          ring

lemma exp_logAlphaLM (q : ℕ → ℕ → ℕ → ℝ) (y : ℕ → ℕ) :
    ∀ u t, Real.exp (logAlphaLM q y u t)
      = alphaFwd (fun a b k => Real.exp (q a b k)) y t u := by
  intro u
  induction u with
  | zero =>
      intro t
      induction t with
      | zero =>
          show Real.exp (cumsum (logFromLeft q 0) 0) = _
          simp [cumsum, logFromLeft]
      | succ t ih =>
          show Real.exp (cumsum (logFromLeft q 0) (t + 1)) = _
          have ih' : Real.exp (cumsum (logFromLeft q 0) t)
              = alphaFwd (fun a b k => Real.exp (q a b k)) y t 0 := ih
          rw [cumsum, Real.exp_add, ih', alphaFwd_succ_zero]
          simp [logFromLeft]
  | succ u ih =>
      intro t
      induction t with
      | zero =>
          show Real.exp (scanrecLog (logFromLeft q (u + 1))
            (fun s => logAlphaLM q y u s + q s u (y u)) 0) = _
          rw [scanrecLog]
          simp only [Real.exp_add, ih 0, alphaFwd_zero_succ]
      | succ t iht =>
          show Real.exp (scanrecLog (logFromLeft q (u + 1))
            (fun s => logAlphaLM q y u s + q s u (y u)) (t + 1)) = _
          have iht' : Real.exp (scanrecLog (logFromLeft q (u + 1))
              (fun s => logAlphaLM q y u s + q s u (y u)) t)
              = alphaFwd (fun a b k => Real.exp (q a b k)) y t (u + 1) := iht
          rw [scanrecLog, Real.exp_log (by positivity), Real.exp_add, iht',
            Real.exp_add, ih (t + 1), alphaFwd_succ_succ]
          simp [logFromLeft]

/-- C2: for every input with `T ≥ 1` and `U ≥ 1`, the time-major log-domain
traversal `transducer_forward_score3` and the label-major traversal
`transducer_forward_score3_transposed` return the same score under exact
real arithmetic. -/
theorem spec_C2_time_major_eq_label_major (T U K : ℕ) (f g : ℕ → ℕ → ℝ)
    (y : ℕ → ℕ) (hT : 1 ≤ T) (hU : 1 ≤ U) :
    transducer_forward_score3 T U K f g y
      = transducer_forward_score3_transposed T U K f g y := by
  have h := Real.exp_injective
  apply h
  rw [transducer_forward_score3, transducer_forward_score3_transposed,
    Real.exp_add, Real.exp_add, exp_logAlphaTM, exp_logAlphaLM]

theorem spec_C2_witness :
    transducer_forward_score3 2 2 2 (fun t k => t + k) (fun u k => u * k) (fun _ => 1)
      = transducer_forward_score3_transposed 2 2 2 (fun t k => t + k)
          (fun u k => u * k) (fun _ => 1) :=
  spec_C2_time_major_eq_label_major 2 2 2 (fun t k => t + k) (fun u k => u * k)
    (fun _ => 1) (by decide) (by decide)

lemma sum_exp_pos (z : ℕ → ℝ) (K : ℕ) (hK : 1 ≤ K) :
    0 < ∑ j ∈ range K, Real.exp (z j) :=
  sum_pos (fun j _ => Real.exp_pos (z j)) (nonempty_range_iff.mpr (by omega))

lemma exp_jointL (f g : ℕ → ℕ → ℝ) (K : ℕ) (hK : 1 ≤ K) (t u k : ℕ) :
    Real.exp (jointL f g K t u k) = jointP f g K t u k := by
  rw [jointL, jointP, logSoftmax, softmax, Real.exp_sub,
    Real.exp_log (sum_exp_pos _ K hK)]

/-- C4: for every valid input (`T ≥ 1`, `U ≥ 1`, `K ≥ 1`), the
probability-domain score of `transducer_forward_score1` equals the
exponential of the log-domain score of `transducer_forward_score3`, under
exact real arithmetic. -/
theorem spec_C4_prob_eq_exp_log (T U K : ℕ) (f g : ℕ → ℕ → ℝ) (y : ℕ → ℕ)
    (hT : 1 ≤ T) (hU : 1 ≤ U) (hK : 1 ≤ K) :
    transducer_forward_score1 T U K f g y
      = Real.exp (transducer_forward_score3 T U K f g y) := by
  rw [transducer_forward_score3, Real.exp_add, exp_logAlphaTM,
    exp_jointL f g K hK, transducer_forward_score1]
  have hq : (fun a b k => Real.exp (jointL f g K a b k)) = jointP f g K := by
    funext a b k
    exact exp_jointL f g K hK a b k
  rw [hq]

theorem spec_C4_witness :
    transducer_forward_score1 2 2 2 (fun t k => t + k) (fun u k => u * k) (fun _ => 1)
      = Real.exp (transducer_forward_score3 2 2 2 (fun t k => t + k)
          (fun u k => u * k) (fun _ => 1)) :=
  spec_C4_prob_eq_exp_log 2 2 2 (fun t k => t + k) (fun u k => u * k)
    (fun _ => 1) (by decide) (by decide) (by decide)

lemma alphaFwd_target_congr (p : ℕ → ℕ → ℕ → ℝ) (y1 y2 : ℕ → ℕ) :
    ∀ t u, (∀ i, i < u → y1 i = y2 i) → alphaFwd p y1 t u = alphaFwd p y2 t u := by
  intro t
  induction t with
  | zero =>
      intro u
      induction u with
      | zero => intro _; rfl
      | succ u ih =>
          intro h
          rw [alphaFwd_zero_succ, alphaFwd_zero_succ,
            ih (fun i hi => h i (by omega)), h u (by omega)]
  | succ t ih =>
      intro u
      induction u with
      | zero =>
          intro _
          rw [alphaFwd_succ_zero, alphaFwd_succ_zero, ih 0 (fun i hi => absurd hi (by omega))]
      | succ u ihu =>
          intro h
          rw [alphaFwd_succ_succ, alphaFwd_succ_succ, ih (u + 1) h,
            ihu (fun i hi => h i (by omega)), h u (by omega)]

/-- C9: two target arrays that differ only in the last element `targets[U-1]`
give the same score under all four forward-score variants: only
`targets[0 .. U-2]` can influence the result. -/
theorem spec_C9_last_target_irrelevant (T U K : ℕ) (f g : ℕ → ℕ → ℝ)
    (y1 y2 : ℕ → ℕ) (hU : 1 ≤ U) (h : ∀ i, i ≠ U - 1 → y1 i = y2 i) :
    transducer_forward_score1 T U K f g y1 = transducer_forward_score1 T U K f g y2
    ∧ transducer_forward_score2 T U K f g y1 = transducer_forward_score2 T U K f g y2
    ∧ transducer_forward_score3 T U K f g y1 = transducer_forward_score3 T U K f g y2
    ∧ transducer_forward_score3_transposed T U K f g y1
        = transducer_forward_score3_transposed T U K f g y2 := by
  have h' : ∀ i, i < U - 1 → y1 i = y2 i := fun i hi => h i (by omega)
  have hfwd : alphaFwd (jointP f g K) y1 (T - 1) (U - 1)
      = alphaFwd (jointP f g K) y2 (T - 1) (U - 1) :=
    alphaFwd_target_congr (jointP f g K) y1 y2 (T - 1) (U - 1) h'
  have hfwdL : alphaFwd (fun a b k => Real.exp (jointL f g K a b k)) y1 (T - 1) (U - 1)
      = alphaFwd (fun a b k => Real.exp (jointL f g K a b k)) y2 (T - 1) (U - 1) :=
    alphaFwd_target_congr _ y1 y2 (T - 1) (U - 1) h'
  refine ⟨?_, ?_, ?_, ?_⟩
  · rw [transducer_forward_score1, transducer_forward_score1, hfwd]
  · rw [transducer_forward_score2, transducer_forward_score2,
      alphaScan_eq_alphaFwd, alphaScan_eq_alphaFwd, hfwd]
  · apply Real.exp_injective
    rw [transducer_forward_score3, transducer_forward_score3, Real.exp_add,
      Real.exp_add, exp_logAlphaTM, exp_logAlphaTM, hfwdL]
  · apply Real.exp_injective
    rw [transducer_forward_score3_transposed, transducer_forward_score3_transposed,
      Real.exp_add, Real.exp_add, exp_logAlphaLM, exp_logAlphaLM, hfwdL]

theorem spec_C9_witness :
    transducer_forward_score1 1 1 1 (fun _ _ => 0) (fun _ _ => 0) (fun _ => 0)
      = transducer_forward_score1 1 1 1 (fun _ _ => 0) (fun _ _ => 0)
          (fun i => if i = 0 then 5 else 0)
    ∧ transducer_forward_score2 1 1 1 (fun _ _ => 0) (fun _ _ => 0) (fun _ => 0)
      = transducer_forward_score2 1 1 1 (fun _ _ => 0) (fun _ _ => 0)
          (fun i => if i = 0 then 5 else 0)
    ∧ transducer_forward_score3 1 1 1 (fun _ _ => 0) (fun _ _ => 0) (fun _ => 0)
      = transducer_forward_score3 1 1 1 (fun _ _ => 0) (fun _ _ => 0)
          (fun i => if i = 0 then 5 else 0)
    ∧ transducer_forward_score3_transposed 1 1 1 (fun _ _ => 0) (fun _ _ => 0)
          (fun _ => 0)
      = transducer_forward_score3_transposed 1 1 1 (fun _ _ => 0) (fun _ _ => 0)
          (fun i => if i = 0 then 5 else 0) :=
  spec_C9_last_target_irrelevant 1 1 1 (fun _ _ => 0) (fun _ _ => 0)
    (fun _ => 0) (fun i => if i = 0 then 5 else 0) (by decide)
    (fun i hi => (if_neg hi).symm)

/-- Error outcomes for a run of `transducer_forward_score1` on arbitrary
(possibly contract-violating) inputs.  The first three constructors are the
named fatal errors of the specification's error taxonomy (section 7);
`shapeError` and `indexError` model the generic runtime errors of the tensor
library (a failed broadcast in the lattice construction, and an out-of-bounds
tensor subscript, respectively). -/
inductive TransducerError where
  | dimensionMismatch
  | emptyInputError
  | invalidTargetIndex
  | shapeError
  | indexError
deriving DecidableEq

/-- Runtime behaviour of `transducer_forward_score1` after the joint lattice
has been built with vocabulary size `K`: writing `alpha[0, 0]` fails when
`T = 0` or `U = 0`; reading `joint_probs[.., .., k]` fails when `K = 0`, and
reading `joint_probs[t, u-1, targets[u-1]]` fails when a consumed target
lies outside `[-K, K)` (the tensor library accepts negative subscripts down
to `-K`, wrapping them to `K + i`, which `% K` below reproduces). -/
noncomputable def transducer_forward_score1RunBody (T U K : ℕ)
    (joint : ℕ → ℕ → ℕ → ℝ) (y : ℕ → ℤ) : Except TransducerError ℝ :=
  if T = 0 ∨ U = 0 then .error .indexError
  else if K = 0 then .error .indexError
  else if ∀ i, i < U - 1 → -(K : ℤ) ≤ y i ∧ y i < (K : ℤ) then
    .ok (alphaFwd joint (fun i => (y i % (K : ℤ)).toNat) (T - 1) (U - 1)
      * joint (T - 1) (U - 1) 0)
  else .error .indexError

/-- Runtime behaviour of a call to `transducer_forward_score1` on raw inputs
with possibly differing vocabulary sizes `K1` (transcription) and `K2`
(prediction).  The broadcast add on line 18 succeeds iff `K1 = K2` or one of
the two is `1` (which the tensor library expands), and otherwise raises a
generic shape error; no input validation of the source's own exists. -/
noncomputable def transducer_forward_score1Run (T K1 U K2 : ℕ)
    (f g : ℕ → ℕ → ℝ) (y : ℕ → ℤ) : Except TransducerError ℝ :=
  if K1 = K2 then
    transducer_forward_score1RunBody T U K1 (jointP f g K1) y
  else if K1 = 1 then
    transducer_forward_score1RunBody T U K2
      (fun t u k => softmax (fun j => f t 0 + g u j) K2 k) y
  else if K2 = 1 then
    transducer_forward_score1RunBody T U K1
      (fun t u k => softmax (fun j => f t j + g u 0) K1 k) y
  else .error .shapeError

lemma score1RunBody_error (T U K : ℕ) (joint : ℕ → ℕ → ℕ → ℝ) (y : ℕ → ℤ)
    (e : TransducerError) :
    transducer_forward_score1RunBody T U K joint y = .error e → e = .indexError := by
  rw [transducer_forward_score1RunBody]
  split
  · intro h
    exact (Except.error.inj h).symm
  · split
    · intro h
      exact (Except.error.inj h).symm
    · split
      · intro h
        exact Except.noConfusion h
      · intro h
        exact (Except.error.inj h).symm

/-- C5 counterexample: at the concrete input `T = 0`, `U = 1`,
`K1 = K2 = 1`, zero scores, the claim requires the call to fail with
`EmptyInputError`; the code instead fails with the generic index error
raised by the write `alpha[0, 0] = 1`, and no named contract error exists
anywhere in its behaviour. -/
theorem spec_C5_counterexample :
    transducer_forward_score1Run 0 1 1 1 (fun _ _ => 0) (fun _ _ => 0) (fun _ => 0)
      = .error .indexError
    ∧ transducer_forward_score1Run 0 1 1 1 (fun _ _ => 0) (fun _ _ => 0) (fun _ => 0)
      ≠ .error .emptyInputError := by
  refine ⟨rfl, fun h => ?_⟩
  have h' : (Except.error TransducerError.indexError : Except TransducerError ℝ)
      = .error .emptyInputError := h
  exact absurd (Except.error.inj h') (by decide)

/-- C5 (amended): the source performs no input validation, so no call ever
fails with one of the named errors `DimensionMismatch`, `EmptyInputError`
or `InvalidTargetIndex` of the specification's taxonomy: every failure is a
generic shape error (vocabulary sizes differ and neither is `1`) or a
generic index error (empty `T` or `U`, empty vocabulary, or a consumed
target outside `[-K, K)`).  On every input satisfying all three contracts —
matching `K ≥ 1`, `T ≥ 1`, `U ≥ 1`, consumed targets in `[0, K)` — the call
succeeds and returns the probability-domain score. -/
theorem spec_C5_error_contract (T K1 U K2 : ℕ) (f g : ℕ → ℕ → ℝ) (y : ℕ → ℤ)
    (e : TransducerError) :
    (transducer_forward_score1Run T K1 U K2 f g y = .error e →
      e = .shapeError ∨ e = .indexError)
    ∧ (K1 = K2 → 1 ≤ K1 → 1 ≤ T → 1 ≤ U →
        (∀ i, i < U - 1 → 0 ≤ y i ∧ y i < (K1 : ℤ)) →
        transducer_forward_score1Run T K1 U K2 f g y
          = .ok (transducer_forward_score1 T U K1 f g (fun i => (y i).toNat))) := by
  constructor
  · intro h
    rw [transducer_forward_score1Run] at h
    split at h
    · exact Or.inr (score1RunBody_error _ _ _ _ _ _ h)
    · split at h
      · exact Or.inr (score1RunBody_error _ _ _ _ _ _ h)
      · split at h
        · exact Or.inr (score1RunBody_error _ _ _ _ _ _ h)
        · exact Or.inl (Except.error.inj h).symm
  · intro hK12 hK hT hU hy
    subst hK12
    rw [transducer_forward_score1Run, if_pos rfl, transducer_forward_score1RunBody,
      if_neg (by omega : ¬ (T = 0 ∨ U = 0)), if_neg (by omega : ¬ K1 = 0),
      if_pos (fun i hi => ⟨by have h1 := (hy i hi).1; omega, (hy i hi).2⟩ :
        ∀ i, i < U - 1 → -(K1 : ℤ) ≤ y i ∧ y i < (K1 : ℤ))]
    have hagree : ∀ i, i < U - 1 → (y i % (K1 : ℤ)).toNat = (y i).toNat := by
      intro i hi
      rw [Int.emod_eq_of_lt (hy i hi).1 (hy i hi).2]
    rw [transducer_forward_score1,
      alphaFwd_target_congr (jointP f g K1) _ _ (T - 1) (U - 1) hagree]

theorem spec_C5_witness :
    transducer_forward_score1Run 1 1 1 1 (fun _ _ => 0) (fun _ _ => 0) (fun _ => 0)
      = .ok (transducer_forward_score1 1 1 1 (fun _ _ => 0) (fun _ _ => 0)
          (fun _ => 0)) :=
  (spec_C5_error_contract 1 1 1 1 (fun _ _ => 0) (fun _ _ => 0) (fun _ => 0)
      TransducerError.indexError).2
    rfl (by decide) (by decide) (by decide) (fun i hi => absurd hi (by omega))

lemma softmax_nonneg (z : ℕ → ℝ) (K k : ℕ) : 0 ≤ softmax z K k :=
  div_nonneg (Real.exp_pos _).le (sum_nonneg fun j _ => (Real.exp_pos (z j)).le)

lemma softmax_le_one (z : ℕ → ℝ) (K k : ℕ) (hk : k < K) : softmax z K k ≤ 1 := by
  rw [softmax, div_le_one (sum_exp_pos z K (by omega))]
  exact single_le_sum (fun j _ => (Real.exp_pos (z j)).le) (mem_range.mpr hk)

lemma softmax_pair_le_one (z : ℕ → ℝ) (K k1 k2 : ℕ) (h1 : k1 < K) (h2 : k2 < K)
    (hne : k1 ≠ k2) : softmax z K k1 + softmax z K k2 ≤ 1 := by
  rw [softmax, softmax, div_add_div_same, div_le_one (sum_exp_pos z K (by omega))]
  calc Real.exp (z k1) + Real.exp (z k2) = ∑ j ∈ ({k1, k2} : Finset ℕ), Real.exp (z j) := by
        rw [sum_pair hne]
    _ ≤ ∑ j ∈ range K, Real.exp (z j) := by
        apply sum_le_sum_of_subset_of_nonneg
        · intro j hj
          rcases mem_insert.mp hj with rfl | hj
          · exact mem_range.mpr h1
          · rw [mem_singleton.mp hj]
            exact mem_range.mpr h2
        · exact fun j _ _ => (Real.exp_pos (z j)).le

lemma alphaFwd_nonneg (p : ℕ → ℕ → ℕ → ℝ) (y : ℕ → ℕ)
    (hp : ∀ a b c, 0 ≤ p a b c) : ∀ t u, 0 ≤ alphaFwd p y t u := by
  intro t
  induction t with
  | zero =>
      intro u
      induction u with
      | zero => norm_num
      | succ u ih =>
          rw [alphaFwd_zero_succ]
          exact mul_nonneg ih (hp _ _ _)
  | succ t ih =>
      intro u
      induction u with
      | zero =>
          rw [alphaFwd_succ_zero]
          exact mul_nonneg (ih 0) (hp _ _ _)
      | succ u ihu =>
          rw [alphaFwd_succ_succ]
          exact add_nonneg (mul_nonneg (ih (u + 1)) (hp _ _ _))
            (mul_nonneg ihu (hp _ _ _))

lemma alphaFwd_diag_le_one (p : ℕ → ℕ → ℕ → ℝ) (y : ℕ → ℕ)
    (hp0 : ∀ a b c, 0 ≤ p a b c)
    (hp1 : ∀ a b, p a b 0 + p a b (y b) ≤ 1) :
    ∀ n, ∑ x ∈ range (n + 1), alphaFwd p y x (n - x) ≤ 1 := by
  intro n
  induction n with
  | zero => simp
  | succ n ih =>
      have hterm : ∀ x ∈ range n, alphaFwd p y (x + 1) (n - x)
          = alphaFwd p y x (n - x) * p x (n - x) 0
            + alphaFwd p y (x + 1) (n - 1 - x) * p (x + 1) (n - 1 - x) (y (n - 1 - x)) := by
        intro x hx
        have hx' : x < n := mem_range.mp hx
        have h1 : n - x = (n - 1 - x) + 1 := by omega
        rw [h1, alphaFwd_succ_succ]
      have e1 : ∑ x ∈ range (n + 2), alphaFwd p y x (n + 1 - x)
          = (∑ x ∈ range (n + 1), alphaFwd p y (x + 1) (n - x))
            + alphaFwd p y 0 (n + 1) := by
        rw [Finset.sum_range_succ']
        congr 1
        apply sum_congr rfl
        intro x _
        congr 1
        omega
      have e2 : ∑ x ∈ range (n + 1), alphaFwd p y (x + 1) (n - x)
          = (∑ x ∈ range n, (alphaFwd p y x (n - x) * p x (n - x) 0
                + alphaFwd p y (x + 1) (n - 1 - x)
                  * p (x + 1) (n - 1 - x) (y (n - 1 - x))))
            + alphaFwd p y n 0 * p n 0 0 := by
        rw [Finset.sum_range_succ]
        congr 1
        · exact sum_congr rfl hterm
        · rw [Nat.sub_self, alphaFwd_succ_zero]
      have e4 : ∑ x ∈ range (n + 1), alphaFwd p y x (n - x) * p x (n - x) 0
          = (∑ x ∈ range n, alphaFwd p y x (n - x) * p x (n - x) 0)
            + alphaFwd p y n 0 * p n 0 0 := by
        rw [Finset.sum_range_succ, Nat.sub_self]
      have e5 : ∑ x ∈ range (n + 1), alphaFwd p y x (n - x) * p x (n - x) (y (n - x))
          = (∑ x ∈ range n, alphaFwd p y (x + 1) (n - 1 - x)
              * p (x + 1) (n - 1 - x) (y (n - 1 - x)))
            + alphaFwd p y 0 n * p 0 n (y n) := by
        rw [Finset.sum_range_succ']
        congr 1
        apply sum_congr rfl
        intro x _
        have hsub : n - (x + 1) = n - 1 - x := by omega
        rw [hsub]
      have key : ∑ x ∈ range (n + 2), alphaFwd p y x (n + 1 - x)
          = ∑ x ∈ range (n + 1),
              alphaFwd p y x (n - x) * (p x (n - x) 0 + p x (n - x) (y (n - x))) := by
        have hsplit : ∀ x ∈ range (n + 1),
            alphaFwd p y x (n - x) * (p x (n - x) 0 + p x (n - x) (y (n - x)))
            = alphaFwd p y x (n - x) * p x (n - x) 0
              + alphaFwd p y x (n - x) * p x (n - x) (y (n - x)) := by
          intro x _
          ring
        rw [sum_congr rfl hsplit, sum_add_distrib, e1, e2, e4, e5,
          alphaFwd_zero_succ, sum_add_distrib]
        ring
      rw [key]
      calc ∑ x ∈ range (n + 1),
            alphaFwd p y x (n - x) * (p x (n - x) 0 + p x (n - x) (y (n - x)))
          ≤ ∑ x ∈ range (n + 1), alphaFwd p y x (n - x) * 1 := by
            apply sum_le_sum
            intro x _
            exact mul_le_mul_of_nonneg_left (hp1 _ _) (alphaFwd_nonneg p y hp0 _ _)
        _ = ∑ x ∈ range (n + 1), alphaFwd p y x (n - x) := by
            simp
        _ ≤ 1 := ih

lemma alphaFwd_le_one (p : ℕ → ℕ → ℕ → ℝ) (y : ℕ → ℕ)
    (hp0 : ∀ a b c, 0 ≤ p a b c)
    (hp1 : ∀ a b, p a b 0 + p a b (y b) ≤ 1) (t u : ℕ) :
    alphaFwd p y t u ≤ 1 := by
  have hd := alphaFwd_diag_le_one p y hp0 hp1 (t + u)
  have hmem : t ∈ range (t + u + 1) := mem_range.mpr (by omega)
  have hsingle : alphaFwd p y t (t + u - t)
      ≤ ∑ x ∈ range (t + u + 1), alphaFwd p y x (t + u - x) :=
    single_le_sum (fun x _ => alphaFwd_nonneg p y hp0 x (t + u - x)) hmem
  have hsub : t + u - t = u := by omega
  rw [hsub] at hsingle
  exact le_trans hsingle hd

/-- C10 counterexample: with `T = U = 2`, `K = 1`, all scores zero and the
target `0` — which lies in `[0, K)` but coincides with the blank index —
the table entry `alpha[1, 1]` and the returned score both equal `2`, so
neither stays in `[0, 1]`. -/
theorem spec_C10_counterexample :
    (0 : ℕ) < 1
    ∧ transducer_forward_score1 2 2 1 (fun _ _ => 0) (fun _ _ => 0) (fun _ => 0) = 2 := by
  refine ⟨by decide, ?_⟩
  have hp : ∀ t u k : ℕ, jointP (fun _ _ => (0 : ℝ)) (fun _ _ => (0 : ℝ)) 1 t u k = 1 := by
    intro t u k
    rw [jointP, softmax]
    norm_num [Real.exp_zero]
  rw [transducer_forward_score1]
  show alphaFwd (jointP (fun _ _ => 0) (fun _ _ => 0) 1) (fun _ => 0) (0 + 1) (0 + 1)
      * jointP (fun _ _ => 0) (fun _ _ => 0) 1 (0 + 1) (0 + 1) 0 = 2
  rw [alphaFwd_succ_succ, alphaFwd_zero_succ, alphaFwd_succ_zero, alphaFwd_zero_zero]
  simp only [hp]
  norm_num

/-- C10 (amended): under exact real arithmetic, for every input with
`T ≥ 1`, `U ≥ 1`, `K ≥ 1` whose consumed targets (positions `0 .. U-2`)
lie in `[0, K)` and moreover avoid the blank index `0`, every alpha-table
entry `alpha[t, u]` with `t < T`, `u < U` lies in `[0, 1]`, and so does the
returned score.  (Allowing a target equal to the blank index falsifies the
bound, as the counterexample shows.) -/
theorem spec_C10_alpha_bounds (f g : ℕ → ℕ → ℝ) (K T U t u : ℕ) (y : ℕ → ℕ)
    (hK : 1 ≤ K) (hT : 1 ≤ T) (hU : 1 ≤ U)
    (hy : ∀ i, i < U - 1 → 1 ≤ y i ∧ y i < K)
    (ht : t < T) (hu : u < U) :
    (0 ≤ alphaFwd (jointP f g K) y t u ∧ alphaFwd (jointP f g K) y t u ≤ 1)
    ∧ (0 ≤ transducer_forward_score1 T U K f g y
       ∧ transducer_forward_score1 T U K f g y ≤ 1) := by
  have hp0 : ∀ a b c, 0 ≤ jointP f g K a b c := fun a b c => softmax_nonneg _ K c
  have hblank : ∀ a b, jointP f g K a b 0 ≤ 1 := fun a b => softmax_le_one _ K 0 (by omega)
  have hnn : ∀ a b, 0 ≤ alphaFwd (jointP f g K) y a b :=
    fun a b => alphaFwd_nonneg (jointP f g K) y hp0 a b
  by_cases hK2 : 2 ≤ K
  · set yy : ℕ → ℕ := fun i => if i < U - 1 then y i else 1 with hyydef
    have hyy : ∀ b, 1 ≤ yy b ∧ yy b < K := by
      intro b
      by_cases hb : b < U - 1
      · simp only [hyydef, if_pos hb]
        exact hy b hb
      · simp only [hyydef, if_neg hb]
        omega
    have hpair : ∀ a b, jointP f g K a b 0 + jointP f g K a b (yy b) ≤ 1 := by
      intro a b
      exact softmax_pair_le_one _ K 0 (yy b) (by omega) (hyy b).2
        (by have := (hyy b).1; omega)
    have hcongr : ∀ w, w ≤ U - 1 → ∀ s, alphaFwd (jointP f g K) y s w
        = alphaFwd (jointP f g K) yy s w := by
      intro w hw s
      apply alphaFwd_target_congr
      intro i hi
      simp only [hyydef, if_pos (by omega : i < U - 1)]
    have hle : ∀ w, w ≤ U - 1 → ∀ s, alphaFwd (jointP f g K) y s w ≤ 1 := by
      intro w hw s
      rw [hcongr w hw s]
      exact alphaFwd_le_one (jointP f g K) yy hp0 hpair s w
    refine ⟨⟨hnn t u, hle u (by omega) t⟩, ?_, ?_⟩
    · exact mul_nonneg (hnn (T - 1) (U - 1)) (hp0 (T - 1) (U - 1) 0)
    · rw [transducer_forward_score1]
      exact mul_le_one₀ (hle (U - 1) (by omega) (T - 1))
        (hp0 (T - 1) (U - 1) 0) (hblank (T - 1) (U - 1))
  · have hK1 : K = 1 := by omega
    have hU1 : U = 1 := by
      by_contra hU2
      have h2 : 2 ≤ U := by omega
      obtain ⟨h1, hlt⟩ := hy 0 (by omega)
      omega
    subst hU1
    have hu0 : u = 0 := by omega
    subst hu0
    have hcol : ∀ s, alphaFwd (jointP f g K) y s 0 = ∏ r ∈ range s, jointP f g K r 0 0 :=
      fun s => alphaFwd_col0 (jointP f g K) y s
    have hcolle : ∀ s, alphaFwd (jointP f g K) y s 0 ≤ 1 := by
      intro s
      rw [hcol s]
      exact prod_le_one (fun r _ => hp0 r 0 0) (fun r _ => hblank r 0)
    refine ⟨⟨hnn t 0, hcolle t⟩, ?_, ?_⟩
    · exact mul_nonneg (hnn (T - 1) 0) (hp0 (T - 1) 0 0)
    · rw [transducer_forward_score1]
      exact mul_le_one₀ (hcolle (T - 1)) (hp0 (T - 1) (1 - 1) 0) (hblank (T - 1) (1 - 1))

theorem spec_C10_witness :
    (0 ≤ alphaFwd (jointP (fun _ _ => 0) (fun _ _ => 0) 1) (fun _ => 1) 0 0
     ∧ alphaFwd (jointP (fun _ _ => 0) (fun _ _ => 0) 1) (fun _ => 1) 0 0 ≤ 1)
    ∧ (0 ≤ transducer_forward_score1 1 1 1 (fun _ _ => 0) (fun _ _ => 0) (fun _ => 1)
       ∧ transducer_forward_score1 1 1 1 (fun _ _ => 0) (fun _ _ => 0) (fun _ => 1) ≤ 1) :=
  spec_C10_alpha_bounds (fun _ _ => 0) (fun _ _ => 0) 1 1 1 0 0 (fun _ => 1)
    (by decide) (by decide) (by decide) (fun i hi => absurd hi (by omega))
    (by decide) (by decide)
